import Mathlib

/-!
# Verification of the Blue Mountains folksonomy pipeline

Shallow embedding of the tag extraction and analysis scripts of the
shale-heritage blue-mountains repository
(`scripts/01_extract_tags.py`, `scripts/02_analyze_tags.py`,
`scripts/03_inspect_multiple_attachments.py`) together with proofs of the
behavioural properties stated in the design documentation.

Modelling conventions:
* Python strings are sequences of Unicode code points; they are modelled as
  `List Char` (abbreviated `Str`).  String literals are written as
  `"...".toList` so that concrete instances evaluate inside the kernel.
* Python dicts (which preserve insertion order and have unique keys) are
  modelled as association lists; `defaultdict` auto-vivification becomes an
  update-or-append operation.
* The external fuzzy-matching library (fuzzywuzzy) is not part of the
  repository; its three metrics are modelled from the specification text
  (see `fuzzRatio`, `fuzzPartialRatio`, `fuzzTokenSortRatio`).
* Network calls (the Zotero API) are modelled as oracle functions passed in
  as parameters; a failed per-item fetch is an oracle returning `none`.
-/

/-- Python strings modelled as lists of code points. -/
abbrev Str := List Char

/-- Python `str.lower()` (the tags in this corpus are ASCII). -/
def toLowerStr (s : Str) : Str := s.map Char.toLower

/-- Levenshtein distance (unit costs) with an explicit fuel argument; the
fuel `|x| + |y|` used by `lev` always suffices.  The fuel makes the
definition structurally recursive, so concrete values reduce in the kernel. -/
def levF : Nat → Str → Str → Nat
  | 0, x, y => x.length + y.length
  | _ + 1, [], y => y.length
  | _ + 1, x, [] => x.length
  | f + 1, a :: x, b :: y =>
    if a = b then levF f x y
    else 1 + min (levF f x (b :: y)) (min (levF f (a :: x) y) (levF f x y))

/-- Levenshtein edit distance between two strings. -/
def lev (x y : Str) : Nat := levF (x.length + y.length) x y

/-- Modelled from the spec: `fuzz.ratio` of the external fuzzywuzzy library
(not part of the repository), described as a "normalized
edit-distance-based ratio over the full strings" on a 0-100 scale. -/
def fuzzRatio (x y : Str) : Nat :=
  if x.length + y.length = 0 then 100
  else (100 * (max x.length y.length - lev x y)) / max x.length y.length

/-- Best `fuzzRatio` between `x` and any window of `y` of length `|x|`
(assuming `|x| ≤ |y|`). -/
def bestWindowRatio (x y : Str) : Nat :=
  ((List.range (y.length - x.length + 1)).map
    (fun i => fuzzRatio x ((y.drop i).take x.length))).foldr max 0

/-- Modelled from the spec: `fuzz.partial_ratio` of the external fuzzywuzzy
library (not part of the repository), described as the
"best-matching-substring ratio": the shorter string is compared against
every window of the longer string of the shorter length. -/
def fuzzPartialRatio (x y : Str) : Nat :=
  if x.length ≤ y.length then bestWindowRatio x y else bestWindowRatio y x

/-- Split a string into words on spaces, dropping empty tokens
(Python `str.split()`); `acc` holds the current word reversed. -/
def splitWordsAux : Str → Str → List Str
  | [], acc => if acc = [] then [] else [acc.reverse]
  | c :: rest, acc =>
    if c = ' ' then
      (if acc = [] then splitWordsAux rest [] else acc.reverse :: splitWordsAux rest [])
    else splitWordsAux rest (c :: acc)

/-- Split a string into its whitespace-separated tokens. -/
def splitWords (s : Str) : List Str := splitWordsAux s []

/-- Tokenize, sort the tokens alphabetically, rejoin with single spaces. -/
def sortTokens (s : Str) : Str :=
  List.intercalate [' '] (List.insertionSort (· ≤ ·) (splitWords s))

/-- Modelled from the spec: `fuzz.token_sort_ratio` of the external
fuzzywuzzy library (not part of the repository): "tokenize each string into
words, sort tokens alphabetically, rejoin, then compute overall similarity
on the sorted-token strings". -/
def fuzzTokenSortRatio (x y : Str) : Nat :=
  fuzzRatio (sortTokens x) (sortTokens y)

/-- All pairs `(l[i], l[j])` with `i < j`, in enumeration order.  This is
exactly the nested loop `for i, tag1 in enumerate(tag_list): for tag2 in
tag_list[i+1:]` of `find_similar_tags`. -/
def pairsOf {α : Type} : List α → List (α × α)
  | [] => []
  | x :: xs => (xs.map fun y => (x, y)) ++ pairsOf xs

/-- Usage information for one tag, as produced by `extract_tags_from_items`
in `01_extract_tags.py`: `{'count': …, 'items': […], 'item_titles': […]}`. -/
structure TagInfo where
  count : Nat
  items : List Str
  item_titles : List Str
deriving Repr, DecidableEq

/-- The tag table: a Python dict mapping tag names to `TagInfo`, modelled as
an insertion-ordered association list. -/
abbrev TagTable := List (Str × TagInfo)

/-- The usage count `tags[name]['count']` (0 when the tag is absent; the
scripts only look up names that are present). -/
def tagCount (tags : TagTable) (name : Str) : Nat :=
  ((tags.lookup name).map TagInfo.count).getD 0

/-- One element of the result list of `find_similar_tags`
(`02_analyze_tags.py`).  The fields `ratio_score`, `partial_score` and
`token_sort_score` model the dict keys `ratio`, `partial` and `token_sort`. -/
structure SimilarPair where
  tag1 : Str
  tag2 : Str
  count1 : Nat
  count2 : Nat
  similarity : Nat
  ratio_score : Nat
  partial_score : Nat
  token_sort_score : Nat
  suggested_merge : Str
deriving Repr, DecidableEq

/-- `find_similar_tags` (`02_analyze_tags.py`, lines 406-468): enumerate the
unordered pairs of the tag list once, score each pair case-insensitively
with the three fuzzy metrics, and keep a pair when the maximum score
reaches the threshold.  `suggested_merge` is `tag1 if tags[tag1]['count']
>= tags[tag2]['count'] else tag2`. -/
def find_similar_tags (tags : TagTable) (threshold : Nat := 80) : List SimilarPair :=
  let tag_list := tags.map Prod.fst
  (pairsOf tag_list).filterMap fun p =>
    let tag1 := p.1
    let tag2 := p.2
    let ratio := fuzzRatio (toLowerStr tag1) (toLowerStr tag2)
    let partialS := fuzzPartialRatio (toLowerStr tag1) (toLowerStr tag2)
    let token_sort := fuzzTokenSortRatio (toLowerStr tag1) (toLowerStr tag2)
    let max_similarity := max (max ratio partialS) token_sort
    if threshold ≤ max_similarity then
      some { tag1 := tag1
             tag2 := tag2
             count1 := tagCount tags tag1
             count2 := tagCount tags tag2
             similarity := max_similarity
             ratio_score := ratio
             partial_score := partialS
             token_sort_score := token_sort
             suggested_merge :=
               if tagCount tags tag2 ≤ tagCount tags tag1 then tag1 else tag2 }
    else none

/-- Canonical (alphabetically sorted) representation of an unordered pair,
as produced by `tuple(sorted([tag1, tag2]))` in `calculate_cooccurrence`;
also used here to state uniqueness of unordered pairs. -/
def canonPair (a b : Str) : Str × Str := if a ≤ b then (a, b) else (b, a)

/-- One element of the result list of `detect_hierarchies`. -/
structure HierarchyCandidate where
  broader_term : Str
  narrower_term : Str
  broader_count : Nat
  narrower_count : Nat
  relationship : Str
deriving Repr, DecidableEq

/-- `detect_hierarchies` (`02_analyze_tags.py`, lines 576-625): for every
ordered pair of distinct tags, emit a candidate when the lowercased first
tag is a strict substring of the lowercased second tag. -/
def detect_hierarchies (tags : TagTable) : List HierarchyCandidate :=
  let tag_list := tags.map Prod.fst
  tag_list.flatMap fun tag =>
    tag_list.filterMap fun other_tag =>
      if tag = other_tag then none
      else
        let tag_lower := toLowerStr tag
        let other_lower := toLowerStr other_tag
        if tag_lower <:+: other_lower ∧ tag_lower ≠ other_lower then
          some { broader_term := other_tag
                 narrower_term := tag
                 broader_count := tagCount tags other_tag
                 narrower_count := tagCount tags tag
                 relationship := "substring".toList }
        else none

/-- The nested co-occurrence counter
`defaultdict(lambda: defaultdict(int))` of `calculate_cooccurrence`,
modelled as an insertion-ordered association list of inner association
lists. -/
abbrev Counter := List (Str × List (Str × Nat))

/-- Increment `inner[k]`, creating the entry with value 1 when absent
(`defaultdict(int)` behaviour). -/
def bumpInner : List (Str × Nat) → Str → List (Str × Nat)
  | [], k => [(k, 1)]
  | (k₀, v) :: rest, k =>
    if k₀ = k then (k₀, v + 1) :: rest else (k₀, v) :: bumpInner rest k

/-- Increment `cooccurrence[t1][t2]`, auto-creating missing levels. -/
def bumpCounter : Counter → Str → Str → Counter
  | [], t1, t2 => [(t1, [(t2, 1)])]
  | (k, inner) :: rest, t1, t2 =>
    if k = t1 then (k, bumpInner inner t2) :: rest
    else (k, inner) :: bumpCounter rest t1 t2

/-- Lookup in the inner map, defaulting to 0. -/
def lookupInner : List (Str × Nat) → Str → Nat
  | [], _ => 0
  | (k₀, v) :: rest, k => if k₀ = k then v else lookupInner rest k

/-- Lookup in the outer map, defaulting to the empty inner map. -/
def lookupCounter : Counter → Str → List (Str × Nat)
  | [], _ => []
  | (k₀, inner) :: rest, k => if k₀ = k then inner else lookupCounter rest k

/-- The stored co-occurrence count `cooccurrence[a][b]`. -/
def getCooc (c : Counter) (a b : Str) : Nat := lookupInner (lookupCounter c a) b

/-- One loop body of Phase 2: `cooccurrence[tag1][tag2] += 1;
cooccurrence[tag2][tag1] += 1`. -/
def bumpPair (c : Counter) (p : Str × Str) : Counter :=
  bumpCounter (bumpCounter c p.1 p.2) p.2 p.1

/-- Fold `bumpPair` over a list of pairs. -/
def buildCounter (ps : List (Str × Str)) (c : Counter) : Counter :=
  ps.foldl bumpPair c

/-- Add `tag` to the tag set of `item` in the inverted index
(`item_tags[item_id].add(tag_name)`); the per-item list stays
duplicate-free, mirroring Python set semantics. -/
def addItemTag : List (Str × List Str) → Str → Str → List (Str × List Str)
  | [], item, tag => [(item, [tag])]
  | (i, ts) :: rest, item, tag =>
    if i = item then (i, if tag ∈ ts then ts else ts ++ [tag]) :: rest
    else (i, ts) :: addItemTag rest item tag

/-- Phase 1 of `calculate_cooccurrence`: build the inverted index
`item_id → set of tag names` by iterating every tag's item list. -/
def item_tags_of (tags : TagTable) : List (Str × List Str) :=
  tags.foldl
    (fun acc p => p.2.items.foldl (fun acc2 item_id => addItemTag acc2 item_id p.1) acc)
    []

/-- The pairs generated for one record:
`combinations(sorted(item_tag_set), 2)` when the record has at least two
tags, nothing otherwise. -/
def recordPairs (ts : List Str) : List (Str × Str) :=
  if 2 ≤ ts.length then pairsOf (List.insertionSort (· ≤ ·) ts) else []

/-- Phase 2, one record: increment the symmetric counter once for every
unordered pair of the record's tag set. -/
def stepRecord (c : Counter) (ts : List Str) : Counter :=
  buildCounter (recordPairs ts) c

/-- The fully accumulated co-occurrence counter of `calculate_cooccurrence`
(Phases 1 and 2). -/
def counter_of (tags : TagTable) : Counter :=
  (item_tags_of tags).foldl (fun c p => stepRecord c p.2) []

/-- One element of the result list of `calculate_cooccurrence`. -/
structure CoocPair where
  tag1 : Str
  tag2 : Str
  count : Nat
  tag1_total : Nat
  tag2_total : Nat
deriving Repr, DecidableEq

/-- Flatten the nested counter into `(tag1, tag2, count)` triples in
iteration order (Phase 3 traversal). -/
def counterEntries (c : Counter) : List (Str × Str × Nat) :=
  c.flatMap fun p => p.2.map fun q => (p.1, q.1, q.2)

/-- Phase 3: emit each unordered pair once, skipping pairs whose canonical
representation has already been processed. -/
def dedupePairs (tags : TagTable) : List (Str × Str × Nat) → List (Str × Str) → List CoocPair
  | [], _ => []
  | (t1, t2, n) :: rest, processed =>
    let pair := canonPair t1 t2
    if pair ∈ processed then dedupePairs tags rest processed
    else
      { tag1 := t1
        tag2 := t2
        count := n
        tag1_total := tagCount tags t1
        tag2_total := tagCount tags t2 } :: dedupePairs tags rest (processed ++ [pair])

instance : DecidableRel (fun p q : CoocPair => q.count ≤ p.count) :=
  fun p q => Nat.decLe q.count p.count

/-- `calculate_cooccurrence` (`02_analyze_tags.py`, lines 749-841): build
the inverted index, count pairwise co-occurrence symmetrically, emit each
unordered pair once, and sort by descending count. -/
def calculate_cooccurrence (tags : TagTable) : List CoocPair :=
  List.insertionSort (fun p q => q.count ≤ p.count)
    (dedupePairs tags (counterEntries (counter_of tags)) [])

instance : DecidableRel (fun p q : SimilarPair => q.similarity ≤ p.similarity) :=
  fun p q => Nat.decLe q.similarity p.similarity

/-- The row order of the CSV written by `save_similar_tags`
(`02_analyze_tags.py`, lines 1117-1137): the pandas DataFrame is sorted by
the `similarity` column, descending.  Note that this sorts a copy; the
caller's list object is not reordered. -/
def save_similar_tags_rows (similar_pairs : List SimilarPair) : List SimilarPair :=
  List.insertionSort (fun p q => q.similarity ≤ p.similarity) similar_pairs

/-- The rows of the "Top 20 Most Similar Tag Pairs" table of
`generate_analysis_report` (`02_analyze_tags.py`, lines 1553-1559):
`similar_pairs[:20]` over the list it receives. -/
def report_top20 (similar_pairs : List SimilarPair) : List SimilarPair :=
  similar_pairs.take 20

/-- The markdown table rows as produced by `main` in `02_analyze_tags.py`:
`generate_analysis_report` receives the list returned by
`find_similar_tags(tags, threshold=80)` unchanged (the DataFrame sort in
`save_similar_tags` does not mutate that list). -/
def analysis_report_similar_rows (tags : TagTable) : List SimilarPair :=
  report_top20 (find_similar_tags tags 80)

/-- A list of similar pairs is ordered by descending maximum similarity. -/
def sortedBySimilarityDesc (l : List SimilarPair) : Prop :=
  List.Pairwise (fun p q => q.similarity ≤ p.similarity) l

instance (l : List SimilarPair) : Decidable (sortedBySimilarityDesc l) := by
  unfold sortedBySimilarityDesc
  infer_instance

/-- The placeholder substituted for a missing title:
`item['data'].get('title', '[No Title]')`. -/
def noTitle : Str := "[No Title]".toList

/-- One record as consumed by `extract_tags_from_items`
(`01_extract_tags.py`): the Zotero key, the optional title, and the list of
tag names (a tag object `{'tag': name}` is modelled by its name, which may
be empty). -/
structure ZItem where
  key : Str
  title : Option Str
  tags : List Str
deriving Repr, DecidableEq

/-- Record one application of tag `name` to item `item_id` in the tag
table: increment the count and append the item id and title;
`defaultdict` creates a fresh entry on first use. -/
def addTag : TagTable → Str → Str → Str → TagTable
  | [], name, item_id, title =>
    [(name, { count := 1, items := [item_id], item_titles := [title] })]
  | (n, info) :: rest, name, item_id, title =>
    if n = name then
      (n, { count := info.count + 1
            items := info.items ++ [item_id]
            item_titles := info.item_titles ++ [title] }) :: rest
    else (n, info) :: addTag rest name item_id title

/-- The inner loop of `extract_tags_from_items` over one item's tag
objects: empty tag names are skipped. -/
def processItemTags (td : TagTable) (it : ZItem) : TagTable :=
  it.tags.foldl
    (fun td2 tag_name =>
      if tag_name = [] then td2
      else addTag td2 tag_name it.key (it.title.getD noTitle))
    td

/-- The statistics object of `extract_tags_from_items`; the average is a
Python float, modelled as an exact rational. -/
structure ExtractStats where
  total_items : Nat
  items_with_tags : Nat
  items_without_tags : Nat
  unique_tags : Nat
  total_tag_applications : Nat
  avg_tags_per_item : ℚ
  max_tags_per_item : Nat
  min_tags_per_item : Nat
deriving Repr, DecidableEq

/-- `extract_tags_from_items` (`01_extract_tags.py`, lines 512-617): fold
the items into the tag table (items with an empty tag list are only
counted), and compute the summary statistics over tagged items. -/
def extract_tags_from_items (items : List ZItem) : TagTable × ExtractStats :=
  let td := items.foldl (fun td it => if it.tags ≠ [] then processItemTags td it else td) []
  let tagged := items.filter fun it => !it.tags.isEmpty
  let tags_per_item := tagged.map fun it => it.tags.length
  let total_tag_applications :=
    (tagged.map fun it => (it.tags.filter fun t => !t.isEmpty).length).sum
  let max_tags : Nat := match tags_per_item with
    | [] => 0
    | x :: xs => xs.foldl max x
  let min_tags : Nat := match tags_per_item with
    | [] => 0
    | x :: xs => xs.foldl min x
  let stats : ExtractStats :=
    { total_items := items.length
      items_with_tags := tagged.length
      items_without_tags := (items.filter fun it => it.tags.isEmpty).length
      unique_tags := td.length
      total_tag_applications := total_tag_applications
      avg_tags_per_item :=
        if tags_per_item = [] then 0
        else (tags_per_item.sum : ℚ) / (tags_per_item.length : ℚ)
      max_tags_per_item := max_tags
      min_tags_per_item := min_tags }
  (td, stats)

/-- JSON values as written by `json.dump` and read back by `json.load`
(Python ints are arbitrary precision; floats are modelled as exact
rationals). -/
inductive Json where
  | str (s : Str)
  | int (n : Int)
  | num (q : ℚ)
  | arr (l : List Json)
  | obj (l : List (Str × Json))
deriving Repr

/-- Dict key access `d[k]` on a JSON object body. -/
def jlookup (o : List (Str × Json)) (k : Str) : Option Json := o.lookup k

/-- Serialize a `TagInfo` as in `save_raw_tags`:
`{'count': …, 'items': […], 'item_titles': […]}`. -/
def tagInfoToJson (info : TagInfo) : Json :=
  .obj [("count".toList, .int info.count),
        ("items".toList, .arr (info.items.map .str)),
        ("item_titles".toList, .arr (info.item_titles.map .str))]

/-- Serialize the tag table as the `tags` block of `raw_tags.json`. -/
def tagsToJson (td : TagTable) : Json :=
  .obj (td.map fun p => (p.1, tagInfoToJson p.2))

/-- Serialize the statistics object as the `metadata.statistics` block. -/
def statsToJson (s : ExtractStats) : Json :=
  .obj [("total_items".toList, .int s.total_items),
        ("items_with_tags".toList, .int s.items_with_tags),
        ("items_without_tags".toList, .int s.items_without_tags),
        ("unique_tags".toList, .int s.unique_tags),
        ("total_tag_applications".toList, .int s.total_tag_applications),
        ("avg_tags_per_item".toList, .num s.avg_tags_per_item),
        ("max_tags_per_item".toList, .int s.max_tags_per_item),
        ("min_tags_per_item".toList, .int s.min_tags_per_item)]

/-- `save_raw_tags` (`01_extract_tags.py`, lines 744-791): the JSON
document written to `data/raw_tags.json`, with a metadata block
(timestamp, group id, statistics) and the tags block. -/
def save_raw_tags (td : TagTable) (stats : ExtractStats)
    (generated_at zotero_group_id : Str) : Json :=
  .obj [("metadata".toList,
          .obj [("generated_at".toList, .str generated_at),
                ("zotero_group_id".toList, .str zotero_group_id),
                ("statistics".toList, statsToJson stats)]),
        ("tags".toList, tagsToJson td)]

/-- Traverse a list with a fallible decoder (all-or-nothing). -/
def traverseOpt {α β : Type} (f : α → Option β) : List α → Option (List β)
  | [] => some []
  | x :: xs =>
    match f x, traverseOpt f xs with
    | some y, some ys => some (y :: ys)
    | _, _ => none

/-- Read a JSON value back as a non-negative integer. -/
def decodeNat : Json → Option Nat
  | .int n => n.toNat'
  | _ => none

/-- Read a JSON value back as a string. -/
def decodeStr : Json → Option Str
  | .str s => some s
  | _ => none

/-- Read a JSON value back as a rational number. -/
def decodeQ : Json → Option ℚ
  | .num q => some q
  | _ => none

/-- Read a JSON array of strings. -/
def decodeStrList : Json → Option (List Str)
  | .arr l => traverseOpt decodeStr l
  | _ => none

/-- Read one tag's usage block back into a `TagInfo`. -/
def decodeTagInfo : Json → Option TagInfo
  | .obj o => do
    let c ← (jlookup o "count".toList).bind decodeNat
    let its ← (jlookup o "items".toList).bind decodeStrList
    let tts ← (jlookup o "item_titles".toList).bind decodeStrList
    pure { count := c, items := its, item_titles := tts }
  | _ => none

/-- Read the `tags` block back into the tag table. -/
def decodeTags : Json → Option TagTable
  | .obj o => traverseOpt (fun p => (decodeTagInfo p.2).map fun info => (p.1, info)) o
  | _ => none

/-- Read the `metadata.statistics` block back into an `ExtractStats`. -/
def decodeStats : Json → Option ExtractStats
  | .obj o => do
    let ti ← (jlookup o "total_items".toList).bind decodeNat
    let iw ← (jlookup o "items_with_tags".toList).bind decodeNat
    let iwo ← (jlookup o "items_without_tags".toList).bind decodeNat
    let ut ← (jlookup o "unique_tags".toList).bind decodeNat
    let ta ← (jlookup o "total_tag_applications".toList).bind decodeNat
    let avg ← (jlookup o "avg_tags_per_item".toList).bind decodeQ
    let mx ← (jlookup o "max_tags_per_item".toList).bind decodeNat
    let mn ← (jlookup o "min_tags_per_item".toList).bind decodeNat
    pure { total_items := ti, items_with_tags := iw, items_without_tags := iwo,
           unique_tags := ut, total_tag_applications := ta,
           avg_tags_per_item := avg, max_tags_per_item := mx,
           min_tags_per_item := mn }
  | _ => none

/-- `load_tag_data` (`02_analyze_tags.py`, lines 270-286): parse the file
and return `(data['tags'], data['metadata']['statistics'])`. -/
def load_tag_data (j : Json) : Option (TagTable × ExtractStats) :=
  match j with
  | .obj o => do
    let tagsJ ← jlookup o "tags".toList
    let td ← decodeTags tagsJ
    let metaJ ← jlookup o "metadata".toList
    match metaJ with
    | .obj m => do
      let statsJ ← jlookup m "statistics".toList
      let stats ← decodeStats statsJ
      pure (td, stats)
    | _ => none
  | _ => none

/-- One library item as consumed by `analyze_data_quality`
(`02_analyze_tags.py`): optional fields model the `.get(key, default)`
accesses; `numChildren` models `item['meta'].get('numChildren', 0)`. -/
structure QItem where
  key : Str
  itemType : Option Str
  title : Option Str
  date : Option Str
  numChildren : Nat
deriving Repr, DecidableEq

/-- The record appended to `title_map[title.lower()]` for one item. -/
structure DupEntry where
  key : Str
  title : Str
  itemType : Str
  date : Str
deriving Repr, DecidableEq

/-- Build the duplicate-detection record of one item, substituting the
documented defaults for missing fields. -/
def dupEntryOf (it : QItem) : DupEntry :=
  { key := it.key
    title := it.title.getD noTitle
    itemType := it.itemType.getD "unknown".toList
    date := it.date.getD [] }

/-- The key under which an item is filed in `title_map`: its effective
title (placeholder included), lowercased. -/
def effTitleKey (it : QItem) : Str := toLowerStr (it.title.getD noTitle)

/-- `title_map[k].append(e)` with `defaultdict(list)` semantics: append to
the existing group, or create a new group at the end. -/
def addTitleEntry : List (Str × List DupEntry) → Str → DupEntry → List (Str × List DupEntry)
  | [], k, e => [(k, [e])]
  | (k₀, g) :: rest, k, e =>
    if k₀ = k then (k₀, g ++ [e]) :: rest else (k₀, g) :: addTitleEntry rest k e

/-- The `title_map` of `analyze_data_quality` after the single pass over
all items. -/
def title_map_of (items : List QItem) : List (Str × List DupEntry) :=
  items.foldl (fun m it => addTitleEntry m (effTitleKey it) (dupEntryOf it)) []

/-- Lookup of a title group, defaulting to the empty group. -/
def lookupGroup : List (Str × List DupEntry) → Str → List DupEntry
  | [], _ => []
  | (k₀, g) :: rest, k => if k₀ = k then g else lookupGroup rest k

/-- The issues dictionary returned by `analyze_data_quality`
(`no_text_extraction` is reserved and always empty; omitted here). -/
structure QualityIssues where
  duplicates : List DupEntry
  non_primary_sources : List (Str × Str × Str)
  multiple_attachments : List (Str × Str × Nat)
  no_attachments : List (Str × Str)
deriving Repr, DecidableEq

/-- `analyze_data_quality` (`02_analyze_tags.py`, lines 1012-1065), the
pure part after the items have been fetched: file every item in the title
map, bucket non-primary types and attachment-count anomalies, then collect
every title group with more than one member into the duplicates list. -/
def analyze_data_quality (items : List QItem) : QualityIssues :=
  let tm := title_map_of items
  { duplicates := tm.flatMap fun p => if 1 < p.2.length then p.2 else []
    non_primary_sources := items.filterMap fun it =>
      let t := it.itemType.getD "unknown".toList
      if t = "note".toList ∨ t = "annotation".toList ∨ t = "attachment".toList then
        some (it.key, it.title.getD noTitle, t)
      else none
    multiple_attachments := items.filterMap fun it =>
      if 1 < it.numChildren then some (it.key, it.title.getD noTitle, it.numChildren)
      else none
    no_attachments := items.filterMap fun it =>
      if it.numChildren = 0 then some (it.key, it.title.getD noTitle) else none }

/-- One child item (attachment or note) as returned by
`fetch_item_details` in `03_inspect_multiple_attachments.py`, reduced to
the two fields the classifier reads. -/
structure ChildItem where
  itemType : Str
  contentType : Str
deriving Repr, DecidableEq

/-- Convert a decimal numeral to a string. -/
def natStr (n : Nat) : Str := (Nat.repr n).toList

/-- The rule chain of `categorise_attachment_pattern` as a function of the
three counts, in source order with first match winning; the result is the
`(category, reasoning, action)` tuple. -/
def categorise_counts (num_pdfs num_notes num_attachments : Nat) : Str × Str × Str :=
  if 2 ≤ num_pdfs ∧ num_notes = 0 then
    ("multiple_pdfs".toList,
     ("Has ".toList ++ natStr num_pdfs ++
       " PDF files with no notes. May be distinct sources combined.".toList),
     "HIGH PRIORITY - Review if these are separate articles".toList)
  else if 1 ≤ num_pdfs ∧ 1 ≤ num_notes then
    ("pdf_plus_notes".toList,
     ("Has ".toList ++ natStr num_pdfs ++ " PDF(s) and ".toList ++ natStr num_notes ++
       " note(s). Likely text extraction.".toList),
     "LOW PRIORITY - Probably legitimate structure".toList)
  else if num_pdfs = 0 ∧ 2 ≤ num_notes then
    ("multiple_notes".toList,
     ("Has ".toList ++ natStr num_notes ++
       " notes with no PDFs. May be transcribed text sections.".toList),
     "REVIEW - Check if notes should be consolidated".toList)
  else if num_pdfs + num_notes < num_attachments then
    ("mixed_content".toList,
     ("Has mixed attachment types: ".toList ++ natStr num_attachments ++
       " total attachments.".toList),
     "REVIEW - Check attachment types and purposes".toList)
  else
    ("uncertain".toList,
     "Pattern unclear from metadata alone.".toList,
     "REVIEW - Manual inspection required".toList)

/-- The PDF children: `contentType == 'application/pdf'`. -/
def pdfCount (children : List ChildItem) : Nat :=
  (children.filter fun c => c.contentType = "application/pdf".toList).length

/-- The note children: `itemType == 'note'`. -/
def noteCount (children : List ChildItem) : Nat :=
  (children.filter fun c => c.itemType = "note".toList).length

/-- The attachment children: `itemType == 'attachment'` (notes excluded). -/
def attachmentCount (children : List ChildItem) : Nat :=
  (children.filter fun c => c.itemType = "attachment".toList).length

/-- `categorise_attachment_pattern`
(`03_inspect_multiple_attachments.py`, lines 540-611): count PDFs, notes
and attachments among the children, then apply the rule chain. -/
def categorise_attachment_pattern (children : List ChildItem) : Str × Str × Str :=
  categorise_counts (pdfCount children) (noteCount children) (attachmentCount children)

/-- The successful result of `fetch_item_details` for one record, reduced
to the fields the inspection pipeline reads. -/
structure ItemInfo where
  key : Str
  title : Str
  children : List ChildItem
deriving Repr, DecidableEq

/-- The fetch loop of `main` in `03_inspect_multiple_attachments.py`
(lines 1168-1192): one `fetch_item_details` call per flagged key, appending
`none` for a failed fetch and continuing with the rest.  The network is the
oracle `fetch`. -/
def process_batch (fetch : Str → Option ItemInfo) (keys : List Str) : List (Option ItemInfo) :=
  keys.map fetch

/-- The keys whose fetch failed; each is logged with its identifier by the
warning print in `fetch_item_details`. -/
def fetch_failures (fetch : Str → Option ItemInfo) (keys : List Str) : List Str :=
  keys.filter fun k => (fetch k).isNone

/-- The items that reach the report and JSON outputs:
`[i for i in items_details if i]`. -/
def retrieved_items (fetch : Str → Option ItemInfo) (keys : List Str) : List ItemInfo :=
  (process_batch fetch keys).reduceOption

/-- How many retrieved items fall into the given category
(`len(categorised[cat])` in the final summary). -/
def category_count (fetch : Str → Option ItemInfo) (keys : List Str) (cat : Str) : Nat :=
  ((retrieved_items fetch keys).filter
    fun i => (categorise_attachment_pattern i.children).1 = cat).length

/-- Every count printed by the completion summary of `main` in
`03_inspect_multiple_attachments.py`: the announced batch size
("Fetching details for N items"), the retrieved count ("Retrieved details
for N items", also "Total items inspected"), and the five per-category
counts of the Category Summary. -/
def summary_numbers (fetch : Str → Option ItemInfo) (keys : List Str) : List Nat :=
  [keys.length,
   (retrieved_items fetch keys).length,
   category_count fetch keys "multiple_pdfs".toList,
   category_count fetch keys "pdf_plus_notes".toList,
   category_count fetch keys "multiple_notes".toList,
   category_count fetch keys "mixed_content".toList,
   category_count fetch keys "uncertain".toList]

/-- A small concrete tag table with one similar pair ("mine"/"mines"). -/
def demoSimilarTags : TagTable :=
  [("mine".toList, { count := 3, items := [], item_titles := [] }),
   ("mines".toList, { count := 2, items := [], item_titles := [] }),
   ("coal".toList, { count := 1, items := [], item_titles := [] })]

/-- A concrete tag table on which the first enumerated pair scores 88 and
the second scores 100: the report tables must reorder it to be descending. -/
def c5Tags : TagTable :=
  [("aaaaaaaaa".toList, { count := 1, items := [], item_titles := [] }),
   ("aaaaaaaab".toList, { count := 1, items := [], item_titles := [] }),
   ("AAAAAAAAA".toList, { count := 1, items := [], item_titles := [] })]

/-- A concrete tag table with a substring-containment pair. -/
def c6Tags : TagTable :=
  [("Coal Mine".toList, { count := 2, items := [], item_titles := [] }),
   ("mine".toList, { count := 5, items := [], item_titles := [] })]

/-- A concrete tag table whose two tags share the item `I1`. -/
def c2Tags : TagTable :=
  [("Mining".toList,
     { count := 2, items := ["I1".toList, "I2".toList],
       item_titles := ["T1".toList, "T2".toList] }),
   ("Katoomba".toList,
     { count := 1, items := ["I1".toList], item_titles := ["T1".toList] })]

/-- A concrete record collection for the extraction pipeline. -/
def c7Items : List ZItem :=
  [{ key := "K1".toList, title := some "T1".toList,
     tags := ["Mining".toList, "Katoomba".toList] },
   { key := "K2".toList, title := none, tags := ["Mining".toList] },
   { key := "K3".toList, title := some "T3".toList, tags := [] }]

/-- A concrete batch of flagged keys for the attachment inspector. -/
def c9Keys : List Str := ["K1".toList, "K2".toList, "K3".toList]

/-- A concrete fetch oracle: `K1` succeeds (with no children), `K2` and
`K3` fail with a network error. -/
def c9fetch : Str → Option ItemInfo := fun k =>
  if k = "K1".toList then some { key := k, title := "T1".toList, children := [] }
  else none

/-- A concrete untitled record. -/
def c10ItemK1 : QItem :=
  { key := "K1".toList, itemType := some "newspaperArticle".toList,
    title := none, date := some "1890".toList, numChildren := 1 }

/-- A concrete item collection with two untitled records and one titled
record. -/
def c10Items : List QItem :=
  [c10ItemK1,
   { key := "K2".toList, itemType := some "book".toList,
     title := some "Shale mining".toList, date := none, numChildren := 0 },
   { key := "K3".toList, itemType := none, title := none, date := none,
     numChildren := 3 }]

/-- The tag-table entry produced for "Mining" by extracting `c7Items`. -/
def miningEntry : Str × TagInfo :=
  ("Mining".toList,
   { count := 2, items := ["K1".toList, "K2".toList],
     item_titles := ["T1".toList, noTitle] })

/-- A concrete children list: three image attachments. -/
def c3Children : List ChildItem :=
  [{ itemType := "attachment".toList, contentType := "image/png".toList },
   { itemType := "attachment".toList, contentType := "image/png".toList },
   { itemType := "attachment".toList, contentType := "image/jpeg".toList }]

/-- Fuel-indexed Levenshtein distance is symmetric at every fuel value. -/
theorem levF_symm (f : Nat) : ∀ x y : Str, levF f x y = levF f y x := by
  induction f with
  | zero => intro x y; simp [levF, Nat.add_comm]
  | succ f ih =>
    intro x y
    cases x with
    | nil =>
      cases y with
      | nil => rfl
      | cons b ys => simp [levF]
    | cons a xs =>
      cases y with
      | nil => simp [levF]
      | cons b ys =>
        simp only [levF]
        by_cases hab : a = b
        · subst hab; simp [ih]
        · have hba : ¬ b = a := fun h => hab h.symm
          simp only [hab, hba, if_false]
          rw [ih xs (b :: ys), ih (a :: xs) ys, ih xs ys]
          omega

/-- Levenshtein distance is symmetric. -/
theorem lev_symm (x y : Str) : lev x y = lev y x := by
  unfold lev
  rw [levF_symm, Nat.add_comm]

/-- The overall fuzzy ratio is symmetric. -/
theorem fuzzRatio_symm (x y : Str) : fuzzRatio x y = fuzzRatio y x := by
  simp only [fuzzRatio]
  rw [lev_symm, Nat.add_comm x.length y.length, Nat.max_comm x.length y.length]

/-- On strings of equal length the only window is the whole string. -/
theorem bestWindowRatio_of_length_eq {x y : Str} (h : x.length = y.length) :
    bestWindowRatio x y = fuzzRatio x y := by
  have h0 : y.length - x.length = 0 := by omega
  have hr : List.range 1 = [0] := rfl
  simp only [bestWindowRatio, h0, hr, List.map_cons, List.map_nil, List.foldr,
    List.drop_zero]
  rw [h, List.take_length]
  exact Nat.max_zero _

/-- The best-substring ratio is symmetric. -/
theorem fuzzPartialRatio_symm (x y : Str) :
    fuzzPartialRatio x y = fuzzPartialRatio y x := by
  rcases lt_trichotomy x.length y.length with h | h | h
  · simp [fuzzPartialRatio, le_of_lt h, not_le.mpr h]
  · simp only [fuzzPartialRatio, h, le_refl, if_true]
    rw [bestWindowRatio_of_length_eq h, bestWindowRatio_of_length_eq h.symm,
      fuzzRatio_symm]
  · simp [fuzzPartialRatio, le_of_lt h, not_le.mpr h]

/-- The token-sort ratio is symmetric. -/
theorem fuzzTokenSortRatio_symm (x y : Str) :
    fuzzTokenSortRatio x y = fuzzTokenSortRatio y x := by
  unfold fuzzTokenSortRatio
  exact fuzzRatio_symm _ _

/-- C4: each of the three similarity metrics computed by the Similarity
Analyzer (ratio, partial ratio, token-sort ratio, each applied to the
lowercased tag names) is symmetric, and so is their maximum. -/
theorem C4_similarity_metrics_symmetric (A B : Str) :
    fuzzRatio (toLowerStr A) (toLowerStr B) = fuzzRatio (toLowerStr B) (toLowerStr A) ∧
    fuzzPartialRatio (toLowerStr A) (toLowerStr B)
      = fuzzPartialRatio (toLowerStr B) (toLowerStr A) ∧
    fuzzTokenSortRatio (toLowerStr A) (toLowerStr B)
      = fuzzTokenSortRatio (toLowerStr B) (toLowerStr A) ∧
    max (max (fuzzRatio (toLowerStr A) (toLowerStr B))
          (fuzzPartialRatio (toLowerStr A) (toLowerStr B)))
        (fuzzTokenSortRatio (toLowerStr A) (toLowerStr B))
      = max (max (fuzzRatio (toLowerStr B) (toLowerStr A))
            (fuzzPartialRatio (toLowerStr B) (toLowerStr A)))
          (fuzzTokenSortRatio (toLowerStr B) (toLowerStr A)) := by
  refine ⟨fuzzRatio_symm _ _, fuzzPartialRatio_symm _ _, fuzzTokenSortRatio_symm _ _, ?_⟩
  rw [fuzzRatio_symm, fuzzPartialRatio_symm, fuzzTokenSortRatio_symm]

/-- Both components of an enumerated pair come from the list. -/
theorem mem_of_mem_pairsOf {α : Type} {l : List α} {a b : α}
    (h : (a, b) ∈ pairsOf l) : a ∈ l ∧ b ∈ l := by
  induction l with
  | nil => simp [pairsOf] at h
  | cons x xs ih =>
    simp only [pairsOf, List.mem_append, List.mem_map] at h
    rcases h with ⟨y, hy, hxy⟩ | h
    · cases hxy
      exact ⟨List.mem_cons_self _ _, List.mem_cons_of_mem _ hy⟩
    · exact ⟨List.mem_cons_of_mem _ (ih h).1, List.mem_cons_of_mem _ (ih h).2⟩

/-- Over a duplicate-free list the enumeration never pairs an element with
itself. -/
theorem ne_of_mem_pairsOf {α : Type} {l : List α} {a b : α}
    (hl : l.Nodup) (h : (a, b) ∈ pairsOf l) : a ≠ b := by
  induction l with
  | nil => simp [pairsOf] at h
  | cons x xs ih =>
    simp only [pairsOf, List.mem_append, List.mem_map] at h
    rcases h with ⟨y, hy, hxy⟩ | h
    · cases hxy
      exact fun hab => (List.nodup_cons.mp hl).1 (hab ▸ hy)
    · exact ih (List.nodup_cons.mp hl).2 h

/-- Two unordered pairs with the same canonical form have the same
elements. -/
theorem canonPair_eq_iff {a b c d : Str} (h : canonPair a b = canonPair c d) :
    (a = c ∧ b = d) ∨ (a = d ∧ b = c) := by
  unfold canonPair at h
  split_ifs at h <;> cases h <;> simp_all

/-- Canonicalizing with a fixed first element is injective. -/
theorem canonPair_left_injective (x : Str) : Function.Injective (fun y => canonPair x y) := by
  intro a b h
  rcases canonPair_eq_iff h with ⟨_, h2⟩ | ⟨h1, h2⟩
  · exact h2
  · exact (h1.symm.trans h2.symm).symm

/-- Over a duplicate-free list the canonical forms of the enumerated pairs
are pairwise distinct: each unordered pair is enumerated at most once. -/
theorem pairsOf_canon_nodup {l : List Str} (hl : l.Nodup) :
    ((pairsOf l).map fun p => canonPair p.1 p.2).Nodup := by
  induction l with
  | nil => simp [pairsOf]
  | cons x xs ih =>
    obtain ⟨hx, hxs⟩ := List.nodup_cons.mp hl
    simp only [pairsOf, List.map_append, List.map_map]
    rw [List.nodup_append]
    refine ⟨?_, ih hxs, ?_⟩
    · have : (fun p : Str × Str => canonPair p.1 p.2) ∘ (fun y => (x, y))
          = fun y => canonPair x y := rfl
      rw [this]
      exact hxs.map (canonPair_left_injective x)
    · intro z hz1 hz2
      simp only [List.mem_map, Function.comp_apply] at hz1 hz2
      obtain ⟨y, hy, hzy⟩ := hz1
      obtain ⟨p, hp, hzp⟩ := hz2
      have hmem := mem_of_mem_pairsOf ((Prod.mk.eta (p := p)) ▸ hp)
      rcases canonPair_eq_iff (hzy.trans hzp.symm) with ⟨h1, _⟩ | ⟨h1, _⟩
      · exact hx (h1 ▸ hmem.1)
      · exact hx (h1 ▸ hmem.2)

/-- Mapping over a `filterMap` is a sublist of mapping over the source
list, provided the two projections agree on successful elements. -/
theorem filterMap_map_sublist {α β γ : Type} (f : α → Option β) (g : β → γ) (h : α → γ)
    (hfg : ∀ x y, f x = some y → g y = h x) :
    ∀ l : List α, ((l.filterMap f).map g).Sublist (l.map h) := by
  intro l
  induction l with
  | nil => simp
  | cons a t ih =>
    rcases hfa : f a with _ | b
    · simp only [List.filterMap_cons, hfa, List.map_cons]
      exact ih.cons _
    · simp only [List.filterMap_cons, hfa, List.map_cons]
      rw [hfg a b hfa]
      exact ih.cons₂ _

/-- C1: over any tag table with distinct tag names and any threshold τ,
every pair emitted by `find_similar_tags` has two distinct tag names, its
three scores are the case-insensitive fuzzy metrics of the pair, its
`similarity` is their maximum and reaches τ, and `suggested_merge` is the
tag of the pair with the higher usage count (ties keeping `tag1`, the
first-encountered tag of the enumeration); moreover each unordered pair of
tags appears at most once in the output. -/
theorem C1_find_similar_tags_sound (tags : TagTable) (τ : Nat)
    (hkeys : (tags.map Prod.fst).Nodup) :
    (∀ p ∈ find_similar_tags tags τ,
      p.tag1 ≠ p.tag2 ∧
      p.ratio_score = fuzzRatio (toLowerStr p.tag1) (toLowerStr p.tag2) ∧
      p.partial_score = fuzzPartialRatio (toLowerStr p.tag1) (toLowerStr p.tag2) ∧
      p.token_sort_score = fuzzTokenSortRatio (toLowerStr p.tag1) (toLowerStr p.tag2) ∧
      p.similarity = max (max p.ratio_score p.partial_score) p.token_sort_score ∧
      τ ≤ p.similarity ∧
      p.count1 = tagCount tags p.tag1 ∧
      p.count2 = tagCount tags p.tag2 ∧
      p.suggested_merge
        = (if tagCount tags p.tag2 ≤ tagCount tags p.tag1 then p.tag1 else p.tag2)) ∧
    ((find_similar_tags tags τ).map fun p => canonPair p.tag1 p.tag2).Nodup := by
  constructor
  · intro p hp
    simp only [find_similar_tags, List.mem_filterMap] at hp
    obtain ⟨q, hq, hfq⟩ := hp
    split at hfq
    · cases hfq
      refine ⟨ne_of_mem_pairsOf hkeys (Prod.mk.eta (p := q) ▸ hq), rfl, rfl, rfl, rfl, ?_, rfl, rfl, rfl⟩
      assumption
    · exact absurd hfq (by simp)
  · have hsub := filterMap_map_sublist
      (fun p : Str × Str =>
        let tag1 := p.1
        let tag2 := p.2
        let ratio := fuzzRatio (toLowerStr tag1) (toLowerStr tag2)
        let partialS := fuzzPartialRatio (toLowerStr tag1) (toLowerStr tag2)
        let token_sort := fuzzTokenSortRatio (toLowerStr tag1) (toLowerStr tag2)
        let max_similarity := max (max ratio partialS) token_sort
        if τ ≤ max_similarity then
          some { tag1 := tag1
                 tag2 := tag2
                 count1 := tagCount tags tag1
                 count2 := tagCount tags tag2
                 similarity := max_similarity
                 ratio_score := ratio
                 partial_score := partialS
                 token_sort_score := token_sort
                 suggested_merge :=
                   if tagCount tags tag2 ≤ tagCount tags tag1 then tag1 else tag2 }
        else none)
      (fun p : SimilarPair => canonPair p.tag1 p.tag2)
      (fun p : Str × Str => canonPair p.1 p.2)
      (by
        intro x y hxy
        simp only at hxy
        split at hxy
        · cases hxy; rfl
        · exact absurd hxy (by simp))
      (pairsOf (tags.map Prod.fst))
    exact hsub.nodup (pairsOf_canon_nodup hkeys)

/-- C1 witness: the demo table has duplicate-free keys and the theorem
applies to it; the pair ("mine", "mines") is emitted with the computed
scores and merge suggestion. -/
theorem C1_witness :
    (demoSimilarTags.map Prod.fst).Nodup ∧
    ("mine".toList ≠ "mines".toList) ∧
    ((find_similar_tags demoSimilarTags 80).map fun p => canonPair p.tag1 p.tag2).Nodup := by
  have h := C1_find_similar_tags_sound demoSimilarTags 80 (by decide)
  refine ⟨by decide, ?_, h.2⟩
  have hp : ({ tag1 := "mine".toList, tag2 := "mines".toList, count1 := 3, count2 := 2,
               similarity := 100, ratio_score := 80, partial_score := 100,
               token_sort_score := 80, suggested_merge := "mine".toList } : SimilarPair)
      ∈ find_similar_tags demoSimilarTags 80 := by decide
  exact (h.1 _ hp).1

/-- C6: every candidate emitted by the Hierarchy Detector has distinct tag
names, with the lowercased narrower term a strict (non-equal) substring of
the lowercased broader term; conversely every ordered pair of distinct
tags satisfying that condition is emitted (both directions of every pair
are checked). -/
theorem C6_detect_hierarchies_characterization (tags : TagTable) :
    (∀ c ∈ detect_hierarchies tags,
      c.narrower_term ≠ c.broader_term ∧
      toLowerStr c.narrower_term <:+: toLowerStr c.broader_term ∧
      toLowerStr c.narrower_term ≠ toLowerStr c.broader_term) ∧
    (∀ A B : Str, A ∈ tags.map Prod.fst → B ∈ tags.map Prod.fst → A ≠ B →
      toLowerStr A <:+: toLowerStr B → toLowerStr A ≠ toLowerStr B →
      ∃ c ∈ detect_hierarchies tags, c.narrower_term = A ∧ c.broader_term = B) := by
  constructor
  · intro c hc
    simp only [detect_hierarchies, List.mem_flatMap, List.mem_filterMap] at hc
    obtain ⟨tag, _, other_tag, _, hsome⟩ := hc
    split at hsome
    · exact absurd hsome (by simp)
    · next hne =>
      split at hsome
      · next hcond =>
        cases hsome
        exact ⟨fun h => hne h, hcond.1, hcond.2⟩
      · exact absurd hsome (by simp)
  · intro A B hA hB hne hinf hlne
    simp only [detect_hierarchies, List.mem_flatMap, List.mem_filterMap]
    refine ⟨{ broader_term := B, narrower_term := A,
              broader_count := tagCount tags B, narrower_count := tagCount tags A,
              relationship := "substring".toList }, ⟨A, hA, B, hB, ?_⟩, rfl, rfl⟩
    rw [if_neg hne, if_pos ⟨hinf, hlne⟩]

/-- C6 witness: in the demo table "mine" is a strict substring of the
lowercased "Coal Mine", and the theorem produces the corresponding
candidate. -/
theorem C6_witness :
    ∃ c ∈ detect_hierarchies c6Tags,
      c.narrower_term = "mine".toList ∧ c.broader_term = "Coal Mine".toList :=
  (C6_detect_hierarchies_characterization c6Tags).2 "mine".toList "Coal Mine".toList
    (by decide) (by decide) (by decide) (by decide) (by decide)

/-- C5: at the concrete table `c5Tags` the similarity scores arrive from
the analyzer in enumeration order 88, 100, 88.  The CSV rows written by
`save_similar_tags` are sorted descending, but the markdown top-20 table of
`generate_analysis_report` receives the list unsorted (the DataFrame sort
does not mutate it) and therefore shows 88 before 100: it is not ordered by
descending maximum similarity. -/
theorem C5_report_table_unsorted :
    (analysis_report_similar_rows c5Tags).map SimilarPair.similarity = [88, 100, 88] ∧
    ¬ sortedBySimilarityDesc (analysis_report_similar_rows c5Tags) ∧
    (save_similar_tags_rows (find_similar_tags c5Tags 80)).map SimilarPair.similarity
      = [100, 88, 88] ∧
    sortedBySimilarityDesc (save_similar_tags_rows (find_similar_tags c5Tags 80)) := by
  decide

/-- C3: the attachment classifier is a total function of the three child
counts (PDF-like children, note children, attachment children), evaluated
in fixed rule order with first match winning; whenever none of the first
three rules matches, the category is `mixed_content` exactly when the
total attachment count exceeds the PDF count plus the note count, and
`uncertain` otherwise. -/
theorem C3_categorise_total_and_rule45 :
    (∀ children : List ChildItem,
      categorise_attachment_pattern children
        = categorise_counts (pdfCount children) (noteCount children)
            (attachmentCount children)) ∧
    (∀ num_pdfs num_notes num_attachments : Nat,
      ¬ (2 ≤ num_pdfs ∧ num_notes = 0) →
      ¬ (1 ≤ num_pdfs ∧ 1 ≤ num_notes) →
      ¬ (num_pdfs = 0 ∧ 2 ≤ num_notes) →
      (categorise_counts num_pdfs num_notes num_attachments).1
        = if num_pdfs + num_notes < num_attachments then "mixed_content".toList
          else "uncertain".toList) := by
  refine ⟨fun _ => rfl, ?_⟩
  intro p n a h1 h2 h3
  rw [categorise_counts, if_neg h1, if_neg h2, if_neg h3]
  split <;> rfl

/-- C3 witness: three image attachments (no PDFs, no notes) fail rules 1-3
and rule 4 fires, giving `mixed_content`; with no children at all rule 5
gives `uncertain`. -/
theorem C3_witness :
    (categorise_counts 0 0 3).1 = "mixed_content".toList ∧
    (categorise_counts 0 0 0).1 = "uncertain".toList ∧
    (categorise_attachment_pattern c3Children).1 = "mixed_content".toList := by
  have h4 := (C3_categorise_total_and_rule45).2 0 0 3 (by decide) (by decide) (by decide)
  have h5 := (C3_categorise_total_and_rule45).2 0 0 0 (by decide) (by decide) (by decide)
  have h1 := (C3_categorise_total_and_rule45).1 c3Children
  refine ⟨?_, ?_, ?_⟩
  · rw [h4]; decide
  · rw [h5]; decide
  · rw [h1, show pdfCount c3Children = 0 from by decide,
      show noteCount c3Children = 0 from by decide,
      show attachmentCount c3Children = 3 from by decide, h4]
    decide

/-- C9 counterexample: with three flagged keys of which only the first
fetch succeeds, the failed keys are logged, but the completion summary
prints the batch size (3), the retrieved count (1) and the five category
counts (0,0,0,0,1) — the number of skipped records (2) appears nowhere in
the summary. -/
theorem C9_counterexample :
    fetch_failures c9fetch c9Keys = ["K2".toList, "K3".toList] ∧
    summary_numbers c9fetch c9Keys = [3, 1, 0, 0, 0, 0, 1] ∧
    c9Keys.length - (retrieved_items c9fetch c9Keys).length = 2 ∧
    2 ∉ summary_numbers c9fetch c9Keys := by
  decide

/-- C9 (amended): a failed per-record fetch does not abort the batch — the
result list has one entry per key and each position depends only on that
key's own fetch; failed keys are logged with their identifiers and
contribute no entry to the retrieved (and hence categorised) output; the
completion summary reports the announced batch total and the number of
successfully processed records (the skipped count is not separately
reported, though it is derivable from the two). -/
theorem C9_batch_resilient :
    (∀ (fetch : Str → Option ItemInfo) (keys : List Str),
      (process_batch fetch keys).length = keys.length) ∧
    (∀ (fetch : Str → Option ItemInfo) (keys : List Str) (j : Nat),
      (process_batch fetch keys)[j]? = (keys[j]?).map fetch) ∧
    (∀ (fetch : Str → Option ItemInfo) (keys : List Str),
      retrieved_items fetch keys = keys.filterMap fetch) ∧
    (∀ (fetch : Str → Option ItemInfo) (keys : List Str) (k : Str),
      k ∈ keys → fetch k = none → k ∈ fetch_failures fetch keys) ∧
    (∀ (fetch : Str → Option ItemInfo) (keys : List Str),
      (summary_numbers fetch keys)[0]? = some keys.length ∧
      (summary_numbers fetch keys)[1]? = some (retrieved_items fetch keys).length) := by
  refine ⟨?_, ?_, ?_, ?_, ?_⟩
  · intro fetch keys
    simp [process_batch]
  · intro fetch keys j
    simp [process_batch, List.getElem?_map]
  · intro fetch keys
    simp only [retrieved_items, process_batch, List.reduceOption, List.filterMap_map]
    rfl
  · intro fetch keys k hk hnone
    simp only [fetch_failures, List.mem_filter, hnone, Option.isNone_none]
    exact ⟨hk, trivial⟩
  · intro fetch keys
    exact ⟨rfl, rfl⟩

/-- C9 witness: in the concrete batch the key K2 is flagged, its fetch
fails, and the theorem places it in the failure log. -/
theorem C9_witness :
    "K2".toList ∈ c9Keys ∧ c9fetch "K2".toList = none ∧
    "K2".toList ∈ fetch_failures c9fetch c9Keys := by
  refine ⟨by decide, by decide, ?_⟩
  exact C9_batch_resilient.2.2.2.1 c9fetch c9Keys "K2".toList (by decide) (by decide)

/-- Folding preserves any invariant that each step preserves. -/
theorem foldl_preserves {α β : Type} (P : β → Prop) (f : β → α → β)
    (hf : ∀ b a, P b → P (f b a)) :
    ∀ (l : List α) (b : β), P b → P (l.foldl f b) := by
  intro l
  induction l with
  | nil => intro b hb; exact hb
  | cons a t ih => intro b hb; exact ih _ (hf b a hb)

/-- Recording one tag application preserves the count/list-length
invariant, and every entry keeps a positive count. -/
theorem addTag_preserves_invariant (name item_id title : Str) :
    ∀ td : TagTable,
      (∀ p ∈ td, p.2.count = p.2.items.length ∧
        p.2.count = p.2.item_titles.length ∧ 1 ≤ p.2.count) →
      ∀ p ∈ addTag td name item_id title,
        p.2.count = p.2.items.length ∧ p.2.count = p.2.item_titles.length ∧ 1 ≤ p.2.count := by
  intro td
  induction td with
  | nil =>
    intro _ p hp
    simp only [addTag, List.mem_singleton] at hp
    subst hp
    simp
  | cons q rest ih =>
    intro h p hp
    simp only [addTag] at hp
    split at hp
    · rcases List.mem_cons.mp hp with hp0 | hprest
      · subst hp0
        have hq := h q (List.mem_cons_self _ _)
        simp only [List.length_append, List.length_singleton]
        refine ⟨?_, ?_, ?_⟩ <;> simp <;> omega
      · exact h p (List.mem_cons_of_mem _ hprest)
    · rcases List.mem_cons.mp hp with hp0 | hprest
      · subst hp0
        exact h q (List.mem_cons_self _ _)
      · exact ih (fun r hr => h r (List.mem_cons_of_mem _ hr)) p hprest

/-- Processing one item's tag list preserves the invariant. -/
theorem processItemTags_preserves_invariant (it : ZItem) (td : TagTable)
    (h : ∀ p ∈ td, p.2.count = p.2.items.length ∧
      p.2.count = p.2.item_titles.length ∧ 1 ≤ p.2.count) :
    ∀ p ∈ processItemTags td it,
      p.2.count = p.2.items.length ∧ p.2.count = p.2.item_titles.length ∧ 1 ≤ p.2.count := by
  unfold processItemTags
  refine foldl_preserves
    (fun td2 : TagTable => ∀ p ∈ td2, p.2.count = p.2.items.length ∧
      p.2.count = p.2.item_titles.length ∧ 1 ≤ p.2.count)
    _ ?_ it.tags td h
  intro td2 tag_name htd2
  dsimp only
  by_cases he : tag_name = []
  · rw [if_pos he]; exact htd2
  · rw [if_neg he]; exact addTag_preserves_invariant tag_name it.key (it.title.getD noTitle) td2 htd2

/-- C7: in the tag table produced by `extract_tags_from_items`, every tag
satisfies `count = len(items) = len(item_titles)` and has `count ≥ 1` (a
tag with zero usage cannot exist: tags are created only by recording an
application). -/
theorem C7_usage_count_invariant (items : List ZItem) :
    ∀ p ∈ (extract_tags_from_items items).1,
      p.2.count = p.2.items.length ∧ p.2.count = p.2.item_titles.length ∧ 1 ≤ p.2.count := by
  simp only [extract_tags_from_items]
  refine foldl_preserves
    (fun td : TagTable => ∀ p ∈ td, p.2.count = p.2.items.length ∧
      p.2.count = p.2.item_titles.length ∧ 1 ≤ p.2.count)
    _ ?_ items [] (by simp)
  intro td it htd
  dsimp only
  by_cases ht : it.tags ≠ []
  · rw [if_pos ht]; exact processItemTags_preserves_invariant it td htd
  · rw [if_neg ht]; exact htd

/-- C7 witness: extracting the demo collection yields the "Mining" entry
with count 2 and matching list lengths; the theorem applies to it. -/
theorem C7_witness :
    miningEntry ∈ (extract_tags_from_items c7Items).1 ∧
    miningEntry.2.count = miningEntry.2.items.length ∧
    miningEntry.2.count = miningEntry.2.item_titles.length ∧
    1 ≤ miningEntry.2.count := by
  have hp : miningEntry ∈ (extract_tags_from_items c7Items).1 := by decide
  exact ⟨hp, C7_usage_count_invariant c7Items _ hp⟩

/-- Appending an entry to the title map extends exactly its own group. -/
theorem lookupGroup_addTitleEntry (k' k : Str) (e : DupEntry) :
    ∀ m : List (Str × List DupEntry),
      lookupGroup (addTitleEntry m k' e) k
        = lookupGroup m k ++ (if k' = k then [e] else []) := by
  intro m
  induction m with
  | nil =>
    by_cases h : k' = k <;> simp [addTitleEntry, lookupGroup, h]
  | cons q rest ih =>
    obtain ⟨k₀, g⟩ := q
    simp only [addTitleEntry]
    by_cases h0 : k₀ = k'
    · rw [if_pos h0]
      simp only [lookupGroup]
      by_cases h1 : k₀ = k
      · rw [if_pos h1, if_pos h1, if_pos (h0.symm.trans h1)]
      · have h2 : ¬ k' = k := fun h => h1 (h0.trans h)
        rw [if_neg h1, if_neg h1, if_neg h2, List.append_nil]
    · rw [if_neg h0]
      simp only [lookupGroup]
      by_cases h1 : k₀ = k
      · rw [if_pos h1, if_pos h1]
        have h2 : ¬ k' = k := fun h => h0 (h1.trans h.symm)
        rw [if_neg h2, List.append_nil]
      · rw [if_neg h1, if_neg h1]
        exact ih

/-- After the single pass, a title group holds exactly the entries of the
items filed under that key, in input order. -/
theorem lookupGroup_title_map (k : Str) :
    ∀ (items : List QItem) (m : List (Str × List DupEntry)),
      lookupGroup
          (items.foldl (fun m it => addTitleEntry m (effTitleKey it) (dupEntryOf it)) m) k
        = lookupGroup m k
          ++ (items.filter fun it => effTitleKey it = k).map dupEntryOf := by
  intro items
  induction items with
  | nil => intro m; simp
  | cons it rest ih =>
    intro m
    simp only [List.foldl_cons, List.filter_cons]
    rw [ih, lookupGroup_addTitleEntry]
    by_cases h : effTitleKey it = k
    · simp [h]
    · simp [h]

/-- A nonempty looked-up group is an entry of the map. -/
theorem mem_of_lookupGroup_ne_nil {k : Str} :
    ∀ {m : List (Str × List DupEntry)},
      lookupGroup m k ≠ [] → (k, lookupGroup m k) ∈ m := by
  intro m
  induction m with
  | nil => intro h; exact absurd rfl h
  | cons q rest ih =>
    obtain ⟨k₀, g⟩ := q
    intro h
    simp only [lookupGroup] at h ⊢
    by_cases h1 : k₀ = k
    · rw [if_pos h1] at h ⊢
      exact List.mem_cons.mpr (Or.inl (by rw [h1]))
    · rw [if_neg h1] at h ⊢
      exact List.mem_cons.mpr (Or.inr (ih h))

/-- Every member of a title group with more than one entry reaches the
duplicates list. -/
theorem mem_duplicates_of_group {items : List QItem} {k : Str} {g : List DupEntry}
    {e : DupEntry} (hmem : (k, g) ∈ title_map_of items) (hlen : 1 < g.length)
    (he : e ∈ g) : e ∈ (analyze_data_quality items).duplicates := by
  simp only [analyze_data_quality, List.mem_flatMap]
  exact ⟨(k, g), hmem, by rw [if_pos hlen]; exact he⟩

/-- Filtering with a weaker predicate keeps at least as many elements. -/
theorem length_filter_mono {α : Type} (p q : α → Bool) (h : ∀ x, p x = true → q x = true) :
    ∀ l : List α, (l.filter p).length ≤ (l.filter q).length := by
  intro l
  induction l with
  | nil => simp
  | cons a t ih =>
    simp only [List.filter_cons]
    by_cases hp : p a = true
    · rw [if_pos hp, if_pos (h a hp)]
      simpa using ih
    · rw [if_neg hp]
      split
      · exact le_trans ih (by simp)
      · exact ih

/-- C10: every untitled record is filed under the lowercased placeholder
title; when at least two records lack a title they all share that one
group, whose size then exceeds 1, so every one of them lands in the
duplicate-title issue list. -/
theorem C10_untitled_records_grouped (items : List QItem)
    (h2 : 2 ≤ (items.filter fun it => it.title = none).length) :
    ∀ it ∈ items, it.title = none →
      (dupEntryOf it).title = noTitle ∧
      dupEntryOf it ∈ lookupGroup (title_map_of items) (toLowerStr noTitle) ∧
      dupEntryOf it ∈ (analyze_data_quality items).duplicates := by
  intro it hit htitle
  have hkey : effTitleKey it = toLowerStr noTitle := by
    simp [effTitleKey, htitle]
  have hgroup_eq : lookupGroup (title_map_of items) (toLowerStr noTitle)
      = ((items.filter fun x => effTitleKey x = toLowerStr noTitle).map dupEntryOf) := by
    have := lookupGroup_title_map (toLowerStr noTitle) items []
    simpa [title_map_of, lookupGroup] using this
  have hmemg : dupEntryOf it ∈ lookupGroup (title_map_of items) (toLowerStr noTitle) := by
    rw [hgroup_eq]
    exact List.mem_map_of_mem _ (List.mem_filter.mpr ⟨hit, by simp [hkey]⟩)
  have hlen : 1 < (lookupGroup (title_map_of items) (toLowerStr noTitle)).length := by
    rw [hgroup_eq, List.length_map]
    have hmono := length_filter_mono
      (fun x : QItem => x.title = none)
      (fun x : QItem => effTitleKey x = toLowerStr noTitle)
      (by
        intro x hx
        simp only [decide_eq_true_eq] at hx ⊢
        simp [effTitleKey, hx]) items
    omega
  have hne : lookupGroup (title_map_of items) (toLowerStr noTitle) ≠ [] :=
    List.ne_nil_of_mem hmemg
  refine ⟨by simp [dupEntryOf, htitle], hmemg, ?_⟩
  exact mem_duplicates_of_group (mem_of_lookupGroup_ne_nil hne) hlen hmemg

/-- C10 witness: the demo collection has two untitled records and the
first of them is placed in the duplicates list by the theorem. -/
theorem C10_witness :
    2 ≤ (c10Items.filter fun it => it.title = none).length ∧
    dupEntryOf c10ItemK1 ∈ (analyze_data_quality c10Items).duplicates := by
  refine ⟨by decide, ?_⟩
  exact (C10_untitled_records_grouped c10Items (by decide) c10ItemK1
    (by decide) (by decide)).2.2

/-- Key lookup on a JSON object finds the first field. -/
theorem jlookup_head (k : Str) (v : Json) (rest : List (Str × Json)) :
    jlookup ((k, v) :: rest) k = some v := by
  simp [jlookup, List.lookup]

/-- Key lookup on a JSON object skips a non-matching first field. -/
theorem jlookup_tail {k k' : Str} (h : ¬ k' = k) (v : Json) (rest : List (Str × Json)) :
    jlookup ((k, v) :: rest) k' = jlookup rest k' := by
  have hb : (k' == k) = false := beq_eq_false_iff_ne.mpr h
  simp [jlookup, List.lookup, hb]

/-- Decoding inverts encoding for non-negative integers. -/
theorem decodeNat_round (n : Nat) : decodeNat (.int n) = some n := rfl

/-- Decoding inverts encoding for string arrays. -/
theorem decodeStrList_round (l : List Str) :
    decodeStrList (.arr (l.map .str)) = some l := by
  simp only [decodeStrList]
  induction l with
  | nil => rfl
  | cons x xs ih =>
    simp only [List.map_cons, traverseOpt, decodeStr, ih]

/-- Decoding inverts encoding for one tag's usage block. -/
theorem decodeTagInfo_round (info : TagInfo) :
    decodeTagInfo (tagInfoToJson info) = some info := by
  cases info with
  | mk c its tts =>
    simp only [tagInfoToJson, decodeTagInfo]
    rw [jlookup_head, jlookup_tail (by decide), jlookup_head,
      jlookup_tail (by decide), jlookup_tail (by decide), jlookup_head]
    simp [decodeNat_round, decodeStrList_round]

/-- Decoding inverts encoding for the whole tags block. -/
theorem decodeTags_round (td : TagTable) : decodeTags (tagsToJson td) = some td := by
  simp only [decodeTags, tagsToJson]
  induction td with
  | nil => rfl
  | cons p rest ih =>
    simp only [List.map_cons, traverseOpt, decodeTagInfo_round, Option.map_some, ih]
    rfl

/-- Decoding inverts encoding for the statistics block. -/
theorem decodeStats_round (s : ExtractStats) :
    decodeStats (statsToJson s) = some s := by
  cases s
  simp only [statsToJson, decodeStats]
  rw [jlookup_head,
    jlookup_tail (by decide), jlookup_head,
    jlookup_tail (by decide), jlookup_tail (by decide), jlookup_head,
    jlookup_tail (by decide), jlookup_tail (by decide), jlookup_tail (by decide),
      jlookup_head,
    jlookup_tail (by decide), jlookup_tail (by decide), jlookup_tail (by decide),
      jlookup_tail (by decide), jlookup_head,
    jlookup_tail (by decide), jlookup_tail (by decide), jlookup_tail (by decide),
      jlookup_tail (by decide), jlookup_tail (by decide), jlookup_head,
    jlookup_tail (by decide), jlookup_tail (by decide), jlookup_tail (by decide),
      jlookup_tail (by decide), jlookup_tail (by decide), jlookup_tail (by decide),
      jlookup_head,
    jlookup_tail (by decide), jlookup_tail (by decide), jlookup_tail (by decide),
      jlookup_tail (by decide), jlookup_tail (by decide), jlookup_tail (by decide),
      jlookup_tail (by decide), jlookup_head]
  simp [decodeNat_round, decodeQ]

/-- C8: serializing the tag table and statistics with `save_raw_tags` and
deserializing with `load_tag_data` round-trips exactly: the same tag set
with the same counts, item-id lists and item-title lists, and the same
statistics fields. -/
theorem C8_raw_tags_round_trip (td : TagTable) (stats : ExtractStats)
    (generated_at zotero_group_id : Str) :
    load_tag_data (save_raw_tags td stats generated_at zotero_group_id)
      = some (td, stats) := by
  simp only [save_raw_tags, load_tag_data]
  rw [jlookup_tail (by decide), jlookup_head]
  simp only [Option.bind_eq_bind, Option.some_bind, decodeTags_round]
  rw [jlookup_head]
  simp only [Option.some_bind]
  rw [jlookup_tail (by decide), jlookup_tail (by decide), jlookup_head]
  simp only [Option.some_bind, decodeStats_round]
  rfl

/-- Incrementing one inner key raises exactly that key's stored value. -/
theorem lookupInner_bumpInner (k k' : Str) :
    ∀ l : List (Str × Nat),
      lookupInner (bumpInner l k) k' = lookupInner l k' + if k = k' then 1 else 0 := by
  intro l
  induction l with
  | nil =>
    simp only [bumpInner, lookupInner]
    by_cases h : k = k' <;> simp [h]
  | cons q rest ih =>
    obtain ⟨k₀, v⟩ := q
    simp only [bumpInner]
    by_cases h0 : k₀ = k
    · simp only [if_pos h0, lookupInner]
      by_cases h1 : k₀ = k'
      · rw [if_pos h1, if_pos h1, if_pos (h0.symm.trans h1)]
      · rw [if_neg h1, if_neg h1, if_neg (fun h => h1 (h0.trans h))]
        omega
    · simp only [if_neg h0, lookupInner]
      by_cases h1 : k₀ = k'
      · rw [if_pos h1, if_pos h1, if_neg (fun h => h0 (h1.trans h.symm))]
        omega
      · rw [if_neg h1, if_neg h1]
        exact ih

/-- Incrementing `cooccurrence[x][y]` raises exactly that cell. -/
theorem getCooc_bumpCounter (x y a b : Str) :
    ∀ c : Counter,
      getCooc (bumpCounter c x y) a b
        = getCooc c a b + if x = a ∧ y = b then 1 else 0 := by
  intro c
  induction c with
  | nil =>
    simp only [bumpCounter, getCooc, lookupCounter]
    by_cases hx : x = a
    · rw [if_pos hx]
      simp only [lookupInner]
      by_cases hy : y = b
      · rw [if_pos hy, if_pos ⟨hx, hy⟩]
      · rw [if_neg hy, if_neg (fun h => hy h.2)]
    · rw [if_neg hx, if_neg (fun h => hx h.1)]
      simp [lookupInner]
  | cons q rest ih =>
    obtain ⟨k, inner⟩ := q
    simp only [bumpCounter]
    by_cases h0 : k = x
    · simp only [if_pos h0, getCooc, lookupCounter]
      by_cases h1 : k = a
      · rw [if_pos h1, if_pos h1, lookupInner_bumpInner]
        have hx : x = a := h0.symm.trans h1
        by_cases hy : y = b
        · rw [if_pos hy, if_pos ⟨hx, hy⟩]
        · rw [if_neg hy, if_neg (fun h => hy h.2)]
      · rw [if_neg h1, if_neg h1,
          if_neg (fun h : x = a ∧ y = b => h1 (h0.trans h.1))]
        omega
    · simp only [if_neg h0, getCooc, lookupCounter]
      by_cases h1 : k = a
      · rw [if_pos h1, if_pos h1,
          if_neg (fun h : x = a ∧ y = b => h0 (h1.trans h.1.symm))]
        omega
      · rw [if_neg h1, if_neg h1]
        exact ih

/-- One symmetric double increment raises both mirror cells. -/
theorem getCooc_bumpPair (p : Str × Str) (a b : Str) (c : Counter) :
    getCooc (bumpPair c p) a b
      = getCooc c a b + (if p.1 = a ∧ p.2 = b then 1 else 0)
        + (if p.2 = a ∧ p.1 = b then 1 else 0) := by
  simp only [bumpPair, getCooc_bumpCounter]

/-- Folding the double increments over a list of pairs with distinct
components adds, to each cell, the number of pairs matching it in either
orientation. -/
theorem getCooc_buildCounter (a b : Str) :
    ∀ (ps : List (Str × Str)) (c : Counter), (∀ p ∈ ps, p.1 ≠ p.2) →
      getCooc (buildCounter ps c) a b
        = getCooc c a b
          + ps.countP fun p => decide ((p.1 = a ∧ p.2 = b) ∨ (p.2 = a ∧ p.1 = b)) := by
  intro ps
  induction ps with
  | nil => intro c _; simp [buildCounter]
  | cons p rest ih =>
    intro c hne
    have hstep : buildCounter (p :: rest) c = buildCounter rest (bumpPair c p) := rfl
    rw [hstep, ih (bumpPair c p) (fun q hq => hne q (List.mem_cons_of_mem _ hq)),
      getCooc_bumpPair, List.countP_cons]
    simp only [decide_eq_true_eq]
    have hp := hne p (List.mem_cons_self _ _)
    by_cases h1 : p.1 = a ∧ p.2 = b
    · have h2 : ¬ (p.2 = a ∧ p.1 = b) := fun h => hp (h1.1.trans h.1.symm)
      rw [if_pos h1, if_neg h2, if_pos (Or.inl h1)]
      omega
    · by_cases h2 : p.2 = a ∧ p.1 = b
      · rw [if_neg h1, if_pos h2, if_pos (Or.inr h2)]
        omega
      · rw [if_neg h1, if_neg h2, if_neg (by rintro (h | h) <;> [exact h1 h; exact h2 h])]
        omega

/-- In a duplicate-free list a membership test counts at most one hit. -/
theorem countP_eq_indicator {xs : List Str} (hx : xs.Nodup) (B : Str) :
    (xs.countP fun y => decide (y = B)) = if B ∈ xs then 1 else 0 := by
  induction xs with
  | nil => simp
  | cons x t ih =>
    obtain ⟨hxt, ht⟩ := List.nodup_cons.mp hx
    rw [List.countP_cons, ih ht]
    simp only [decide_eq_true_eq, List.mem_cons]
    by_cases hxB : x = B
    · have hBt : B ∉ t := fun h => hxt (hxB ▸ h)
      rw [if_neg hBt, if_pos hxB, if_pos (Or.inl hxB.symm)]
    · rw [if_neg hxB]
      by_cases hBt : B ∈ t
      · rw [if_pos hBt, if_pos (Or.inr hBt)]
      · rw [if_neg hBt, if_neg (by rintro (h | h) <;> [exact hxB h.symm; exact hBt h])]

/-- Over a strictly sorted list, the enumerated pairs match a given
unordered pair of distinct strings exactly once when both strings are in
the list, and never otherwise. -/
theorem countP_pairsOf_sorted {A B : Str} (hAB : A ≠ B) :
    ∀ l : List Str, List.Sorted (· < ·) l →
      ((pairsOf l).countP fun p => decide ((p.1 = A ∧ p.2 = B) ∨ (p.2 = A ∧ p.1 = B)))
        = if A ∈ l ∧ B ∈ l then 1 else 0 := by
  intro l
  induction l with
  | nil => intro _; simp [pairsOf]
  | cons x xs ih =>
    intro hs
    have hxlt : ∀ y ∈ xs, x < y := (List.sorted_cons.mp hs).1
    have hxs : List.Sorted (· < ·) xs := (List.sorted_cons.mp hs).2
    have hxnotmem : x ∉ xs := fun h => lt_irrefl x (hxlt x h)
    have hnd : xs.Nodup := hxs.nodup
    simp only [pairsOf, List.countP_append, List.countP_map, ih hxs]
    by_cases hxA : x = A
    · have hAxs : A ∉ xs := hxA ▸ hxnotmem
      have hpred : ∀ y ∈ xs,
          ((fun p : Str × Str =>
            decide ((p.1 = A ∧ p.2 = B) ∨ (p.2 = A ∧ p.1 = B))) ∘ fun y => (x, y)) y
          = decide (y = B) := by
        intro y _
        apply decide_eq_decide.mpr
        constructor
        · rintro (h | h)
          · exact h.2
          · exact absurd (hxA.symm.trans h.2) hAB
        · intro h
          exact Or.inl ⟨hxA, h⟩
      rw [List.countP_congr (fun y hy => by rw [hpred y hy]), countP_eq_indicator hnd]
      rw [if_neg (fun h : A ∈ xs ∧ B ∈ xs => hAxs h.1)]
      simp only [List.mem_cons]
      by_cases hBxs : B ∈ xs
      · rw [if_pos hBxs, if_pos ⟨Or.inl hxA.symm, Or.inr hBxs⟩]
      · have hBne : ¬ B = x := fun h => hAB (hxA ▸ h).symm
        rw [if_neg hBxs,
          if_neg (by rintro ⟨_, hB | hB⟩ <;> [exact hBne hB; exact hBxs hB])]
    · by_cases hxB : x = B
      · have hBxs : B ∉ xs := hxB ▸ hxnotmem
        have hpred : ∀ y ∈ xs,
            ((fun p : Str × Str =>
              decide ((p.1 = A ∧ p.2 = B) ∨ (p.2 = A ∧ p.1 = B))) ∘ fun y => (x, y)) y
            = decide (y = A) := by
          intro y _
          apply decide_eq_decide.mpr
          constructor
          · rintro (h | h)
            · exact absurd h.1 hxA
            · exact h.1
          · intro h
            exact Or.inr ⟨h, hxB⟩
        rw [List.countP_congr (fun y hy => by rw [hpred y hy]), countP_eq_indicator hnd]
        rw [if_neg (fun h : A ∈ xs ∧ B ∈ xs => hBxs h.2)]
        simp only [List.mem_cons]
        by_cases hAxs : A ∈ xs
        · rw [if_pos hAxs, if_pos ⟨Or.inr hAxs, Or.inl hxB.symm⟩]
        · rw [if_neg hAxs,
            if_neg (by rintro ⟨hA | hA, _⟩ <;> [exact hxA hA.symm; exact hAxs hA])]
      · have hpred : ∀ y ∈ xs,
            ((fun p : Str × Str =>
              decide ((p.1 = A ∧ p.2 = B) ∨ (p.2 = A ∧ p.1 = B))) ∘ fun y => (x, y)) y
            = false := by
          intro y _
          simp only [Function.comp_apply, decide_eq_false_iff_not]
          rintro (h | h)
          · exact hxA h.1
          · exact hxB h.2
        rw [List.countP_congr (fun y hy => by rw [hpred y hy])]
        simp only [List.mem_cons]
        have hcount : xs.countP (fun _ => false) = 0 := by
          simp [List.countP_eq_length_filter]
        rw [hcount, Nat.zero_add]
        have hiff : ((A = x ∨ A ∈ xs) ∧ (B = x ∨ B ∈ xs)) ↔ (A ∈ xs ∧ B ∈ xs) := by
          constructor
          · rintro ⟨hA | hA, hB | hB⟩
            · exact absurd hA (fun h => hxA h.symm)
            · exact absurd hA (fun h => hxA h.symm)
            · exact absurd hB (fun h => hxB h.symm)
            · exact ⟨hA, hB⟩
          · rintro ⟨hA, hB⟩
            exact ⟨Or.inr hA, Or.inr hB⟩
        rw [if_congr hiff rfl rfl]

/-- Twice the number of enumerated pairs is `n·(n−1)`. -/
theorem pairsOf_length_two_mul {α : Type} :
    ∀ l : List α, 2 * (pairsOf l).length = l.length * (l.length - 1) := by
  intro l
  induction l with
  | nil => rfl
  | cons x xs ih =>
    simp only [pairsOf, List.length_append, List.length_map, List.length_cons]
    have h2 : (xs.length + 1) * (xs.length + 1 - 1)
        = xs.length * (xs.length - 1) + 2 * xs.length := by
      cases xs.length with
      | zero => rfl
      | succ m =>
        simp only [Nat.succ_sub_one]
        ring
    rw [h2]
    omega

/-- A record with tag set of size k generates exactly k·(k−1)/2 pairs. -/
theorem recordPairs_length (ts : List Str) :
    (recordPairs ts).length = ts.length * (ts.length - 1) / 2 := by
  unfold recordPairs
  by_cases hlen : 2 ≤ ts.length
  · rw [if_pos hlen]
    have h2 := pairsOf_length_two_mul (List.insertionSort (· ≤ ·) ts)
    have hperm : (List.insertionSort (· ≤ ·) ts).length = ts.length :=
      (List.perm_insertionSort _ ts).length_eq
    rw [hperm] at h2
    omega
  · rw [if_neg hlen]
    cases ts with
    | nil => simp
    | cons x t =>
      cases t with
      | nil => simp
      | cons y t2 =>
        exfalso
        apply hlen
        simp only [List.length_cons]
        omega

/-- Processing one record adds exactly one co-occurrence to every
unordered pair of distinct tags of its tag set, and touches nothing else. -/
theorem getCooc_stepRecord (c : Counter) (ts : List Str) (A B : Str)
    (hts : ts.Nodup) (hAB : A ≠ B) :
    getCooc (stepRecord c ts) A B
      = getCooc c A B + if A ∈ ts ∧ B ∈ ts then 1 else 0 := by
  unfold stepRecord recordPairs
  by_cases hlen : 2 ≤ ts.length
  · rw [if_pos hlen]
    have hperm := List.perm_insertionSort (· ≤ ·) ts
    have hnd : (List.insertionSort (· ≤ ·) ts).Nodup := hperm.nodup_iff.mpr hts
    have hsorted : List.Sorted (· < ·) (List.insertionSort (· ≤ ·) ts) :=
      (List.sorted_insertionSort (· ≤ ·) ts).lt_of_le hnd
    have hne : ∀ p ∈ pairsOf (List.insertionSort (· ≤ ·) ts), p.1 ≠ p.2 := by
      intro p hp
      exact ne_of_mem_pairsOf hnd (Prod.mk.eta (p := p) ▸ hp)
    rw [getCooc_buildCounter A B _ c hne, countP_pairsOf_sorted hAB _ hsorted]
    rw [if_congr (and_congr hperm.mem_iff hperm.mem_iff) rfl rfl]
  · rw [if_neg hlen]
    have hc : buildCounter [] c = c := rfl
    rw [hc]
    have hnot : ¬ (A ∈ ts ∧ B ∈ ts) := by
      rintro ⟨hA, hB⟩
      cases ts with
      | nil => cases hA
      | cons x t =>
        cases t with
        | nil =>
          rw [List.mem_singleton.mp hA, List.mem_singleton.mp hB] at hAB
          exact hAB rfl
        | cons y t2 =>
          apply hlen
          simp only [List.length_cons]
          omega
    rw [if_neg hnot]
    omega

/-- The symmetric double increment preserves counter symmetry. -/
theorem getCooc_symm_bumpPair {c : Counter}
    (hsym : ∀ a b, getCooc c a b = getCooc c b a) (p : Str × Str) :
    ∀ a b, getCooc (bumpPair c p) a b = getCooc (bumpPair c p) b a := by
  intro a b
  rw [getCooc_bumpPair, getCooc_bumpPair, hsym a b,
    if_congr (and_comm (a := p.1 = a) (b := p.2 = b)) rfl rfl,
    if_congr (and_comm (a := p.2 = a) (b := p.1 = b)) rfl rfl]
  omega

/-- Folding double increments preserves counter symmetry. -/
theorem getCooc_symm_buildCounter :
    ∀ (ps : List (Str × Str)) (c : Counter),
      (∀ a b, getCooc c a b = getCooc c b a) →
      ∀ a b, getCooc (buildCounter ps c) a b = getCooc (buildCounter ps c) b a := by
  intro ps
  induction ps with
  | nil => intro c h; exact h
  | cons p rest ih => intro c h; exact ih (bumpPair c p) (getCooc_symm_bumpPair h p)

/-- The accumulated co-occurrence counter is symmetric. -/
theorem getCooc_counter_of_symm (tags : TagTable) :
    ∀ a b, getCooc (counter_of tags) a b = getCooc (counter_of tags) b a := by
  unfold counter_of
  have h := foldl_preserves (fun c : Counter => ∀ a b, getCooc c a b = getCooc c b a)
    (fun (c : Counter) (p : Str × List Str) => stepRecord c p.2)
    (fun c p hsym => by
      unfold stepRecord
      exact getCooc_symm_buildCounter (recordPairs p.2) c hsym)
    (item_tags_of tags) [] (fun a b => rfl)
  exact h

/-- A positive stored value points at an existing inner entry. -/
theorem lookupInner_mem {b : Str} :
    ∀ {l : List (Str × Nat)}, 1 ≤ lookupInner l b → (b, lookupInner l b) ∈ l := by
  intro l
  induction l with
  | nil => intro h; simp [lookupInner] at h
  | cons q rest ih =>
    obtain ⟨k, v⟩ := q
    intro h
    simp only [lookupInner] at h ⊢
    by_cases hk : k = b
    · rw [if_pos hk] at h ⊢
      exact List.mem_cons.mpr (Or.inl (by rw [hk]))
    · rw [if_neg hk] at h ⊢
      exact List.mem_cons.mpr (Or.inr (ih h))

/-- A nonempty looked-up inner map is an entry of the outer map. -/
theorem lookupCounter_mem {a : Str} :
    ∀ {c : Counter}, lookupCounter c a ≠ [] → (a, lookupCounter c a) ∈ c := by
  intro c
  induction c with
  | nil => intro h; exact absurd rfl h
  | cons q rest ih =>
    obtain ⟨k, inner⟩ := q
    intro h
    simp only [lookupCounter] at h ⊢
    by_cases hk : k = a
    · rw [if_pos hk] at h ⊢
      exact List.mem_cons.mpr (Or.inl (by rw [hk]))
    · rw [if_neg hk] at h ⊢
      exact List.mem_cons.mpr (Or.inr (ih h))

/-- Every cell with a positive count appears in the flattened entries. -/
theorem mem_counterEntries_of_pos {c : Counter} {a b : Str}
    (h : 1 ≤ getCooc c a b) :
    (a, b, getCooc c a b) ∈ counterEntries c := by
  have hinner_ne : lookupCounter c a ≠ [] := by
    intro hnil
    unfold getCooc at h
    rw [hnil] at h
    simp [lookupInner] at h
  have h1 := lookupCounter_mem hinner_ne
  have h2 := lookupInner_mem (l := lookupCounter c a) h
  simp only [counterEntries, List.mem_flatMap]
  exact ⟨(a, lookupCounter c a), h1, List.mem_map.mpr ⟨(b, getCooc c a b), h2, rfl⟩⟩

/-- Phase 3 characterization: the canonical pair forms of the emitted rows
are duplicate-free, and a canonical pair is emitted exactly when it
belongs to the entries and was not already processed. -/
theorem dedupePairs_canon (tags : TagTable) :
    ∀ (es : List (Str × Str × Nat)) (processed : List (Str × Str)),
      (((dedupePairs tags es processed).map fun p => canonPair p.tag1 p.tag2).Nodup)
      ∧ (∀ x : Str × Str,
          x ∈ (dedupePairs tags es processed).map (fun p => canonPair p.tag1 p.tag2)
            ↔ ((∃ e ∈ es, canonPair e.1 e.2.1 = x) ∧ x ∉ processed)) := by
  intro es
  induction es with
  | nil =>
    intro processed
    refine ⟨by simp [dedupePairs], ?_⟩
    intro x
    simp [dedupePairs]
  | cons e rest ih =>
    obtain ⟨t1, t2, n⟩ := e
    intro processed
    simp only [dedupePairs]
    by_cases hmem : canonPair t1 t2 ∈ processed
    · rw [if_pos hmem]
      refine ⟨(ih processed).1, ?_⟩
      intro x
      rw [(ih processed).2 x]
      constructor
      · rintro ⟨⟨e, he, hce⟩, hx⟩
        exact ⟨⟨e, List.mem_cons_of_mem _ he, hce⟩, hx⟩
      · rintro ⟨⟨e, he, hce⟩, hx⟩
        rcases List.mem_cons.mp he with he0 | he'
        · subst he0
          exact absurd (hce ▸ hmem) hx
        · exact ⟨⟨e, he', hce⟩, hx⟩
    · rw [if_neg hmem]
      have hihn := ih (processed ++ [canonPair t1 t2])
      constructor
      · rw [List.map_cons, List.nodup_cons]
        refine ⟨?_, hihn.1⟩
        intro hmem2
        have hh := (hihn.2 _).mp hmem2
        exact hh.2 (List.mem_append.mpr (Or.inr (List.mem_singleton.mpr rfl)))
      · intro x
        rw [List.map_cons, List.mem_cons, hihn.2 x]
        constructor
        · rintro (hx | ⟨⟨e, he, hce⟩, hxp⟩)
          · subst hx
            exact ⟨⟨(t1, t2, n), List.mem_cons_self _ _, rfl⟩, hmem⟩
          · exact ⟨⟨e, List.mem_cons_of_mem _ he, hce⟩,
              fun hxp2 => hxp (List.mem_append.mpr (Or.inl hxp2))⟩
        · rintro ⟨⟨e, he, hce⟩, hxp⟩
          rcases List.mem_cons.mp he with he0 | he'
          · subst he0
            exact Or.inl hce.symm
          · by_cases hxc : x = canonPair t1 t2
            · exact Or.inl hxc
            · refine Or.inr ⟨⟨e, he', hce⟩, ?_⟩
              intro hxapp
              rcases List.mem_append.mp hxapp with hh | hh
              · exact hxp hh
              · exact hxc (List.mem_singleton.mp hh)

/-- C2: the co-occurrence counter built by `calculate_cooccurrence` is
symmetric; processing one record adds exactly 1 to every unordered pair of
distinct tags of its tag set (and nothing else), generating exactly
k·(k−1)/2 pairs for a k-tag record; a record with at most one tag changes
nothing; and each unordered pair with a positive count appears exactly
once in the output list (its canonical forms are duplicate-free and every
positive pair is present). -/
theorem C2_cooccurrence (tags : TagTable) :
    (∀ A B : Str, getCooc (counter_of tags) A B = getCooc (counter_of tags) B A) ∧
    (∀ (c : Counter) (ts : List Str) (A B : Str), ts.Nodup → A ≠ B →
      getCooc (stepRecord c ts) A B
        = getCooc c A B + if A ∈ ts ∧ B ∈ ts then 1 else 0) ∧
    (∀ ts : List Str, (recordPairs ts).length = ts.length * (ts.length - 1) / 2) ∧
    (∀ (c : Counter) (ts : List Str), ts.length ≤ 1 → stepRecord c ts = c) ∧
    (((calculate_cooccurrence tags).map fun p => canonPair p.tag1 p.tag2).Nodup ∧
      ∀ A B : Str, 1 ≤ getCooc (counter_of tags) A B →
        canonPair A B ∈ (calculate_cooccurrence tags).map fun p => canonPair p.tag1 p.tag2) := by
  have hd := dedupePairs_canon tags (counterEntries (counter_of tags)) []
  have hperm : (calculate_cooccurrence tags).Perm
      (dedupePairs tags (counterEntries (counter_of tags)) []) := by
    unfold calculate_cooccurrence
    exact List.perm_insertionSort _ _
  refine ⟨getCooc_counter_of_symm tags,
    fun c ts A B hnd hne => getCooc_stepRecord c ts A B hnd hne,
    recordPairs_length,
    ?_, ?_, ?_⟩
  · intro c ts h
    unfold stepRecord recordPairs
    rw [if_neg (by omega)]
    rfl
  · exact ((hperm.map _).nodup_iff).mpr hd.1
  · intro A B h
    have hentry := mem_counterEntries_of_pos h
    have hx : canonPair A B
        ∈ (dedupePairs tags (counterEntries (counter_of tags)) []).map
          fun p => canonPair p.tag1 p.tag2 :=
      (hd.2 _).mpr ⟨⟨(A, B, getCooc (counter_of tags) A B), hentry, rfl⟩, by simp⟩
    exact ((hperm.map _).mem_iff).mpr hx

/-- C2 witness: in the demo table the record I1 carries both tags, so the
step equation yields co-occurrence 1 for the pair, the accumulated counter
is positive there, and the canonical pair appears in the output. -/
theorem C2_witness :
    (["Mining".toList, "Katoomba".toList] : List Str).Nodup ∧
    ("Mining".toList ≠ "Katoomba".toList) ∧
    getCooc (stepRecord [] ["Mining".toList, "Katoomba".toList])
      "Mining".toList "Katoomba".toList = 1 ∧
    1 ≤ getCooc (counter_of c2Tags) "Katoomba".toList "Mining".toList ∧
    canonPair "Katoomba".toList "Mining".toList
      ∈ (calculate_cooccurrence c2Tags).map fun p => canonPair p.tag1 p.tag2 := by
  have h := C2_cooccurrence c2Tags
  refine ⟨by decide, by decide, ?_, by decide, ?_⟩
  · have hstep := h.2.1 [] ["Mining".toList, "Katoomba".toList]
      "Mining".toList "Katoomba".toList (by decide) (by decide)
    rw [hstep]
    decide
  · exact h.2.2.2.2.2 "Katoomba".toList "Mining".toList (by decide)
